import Mathlib

/-!
Verification of the `ntree` directory-tree lister (src/ntree.c) against its
natural-language specification.

The development shallowly embeds the program:

* byte strings are `List Nat` (each element one byte of a C string);
* `strcmp` follows the C semantics exactly, including treating a zero byte
  as a terminator;
* the filesystem visible to the program is an inductive tree `FSTree`:
  a node is a plain file or a directory carrying the raw `readdir` stream
  (name plus the result of `stat`, where `none` models a failing `stat`),
  and a flag saying whether `opendir` succeeds on it;
* `snprintf` into a `PATH_MAX` buffer is modelled as truncation to
  `PATH_MAX - 1` bytes;
* `qsort` with `compareDirEntries` is modelled by an insertion sort over
  the comparator (the code relies only on the comparator contract);
* stdout is a list of printed lines (each line carries its trailing
  newline byte) and stderr a list of diagnostics.
-/

namespace Ntree

/-- PATH_MAX as used by the program (the fallback in the source is 4096,
matching the common Linux value). -/
def PATH_MAX : Nat := 4096

/-- C `strcmp` on byte lists: walks both strings, a list end behaves as the
NUL terminator (byte 0); returns the signed difference of the first
differing byte pair, and 0 when both strings end (or meet a common NUL)
together. -/
def strcmp : List Nat → List Nat → Int
  | [], [] => 0
  | [], b :: _ => if b = 0 then 0 else -(b : Int)
  | a :: _, [] => if a = 0 then 0 else (a : Int)
  | a :: as, b :: bs =>
      if a = b then (if a = 0 then 0 else strcmp as bs)
      else (a : Int) - (b : Int)

/-- The `DirEntry` struct of the source: an entry name and the
directory flag obtained from `stat`. -/
structure DirEntry where
  name : List Nat
  is_dir : Bool
deriving DecidableEq

/-- The comparison function handed to `qsort` (src/ntree.c lines 21-37):
a directory before a non-directory decides outright, otherwise `strcmp`
on the names. -/
def compareDirEntries (a b : DirEntry) : Int :=
  if a.is_dir && !b.is_dir then -1
  else if !a.is_dir && b.is_dir then 1
  else strcmp a.name b.name

/-- The filesystem as the program observes it: a node is a plain file, or a
directory with an `opendir`-success flag and its raw `readdir` stream.
Each raw child is a name paired with the outcome of `stat` on it:
`none` when `stat` fails, `some t` when it classifies as the node `t`.
The pseudo-entries "." and ".." appear in the stream like any other name. -/
inductive FSTree where
  | file : FSTree
  | dir (openable : Bool) (children : List (List Nat × Option FSTree)) : FSTree

/-- S_ISDIR of a node. -/
def isDirT : FSTree → Bool
  | .file => false
  | .dir _ _ => true

/-- Whether `opendir` succeeds on the node. -/
def openableB : FSTree → Bool
  | .dir true _ => true
  | _ => false

/-- An entry as kept by the traversal: the name together with the subtree
it denotes (the source keeps `{name, is_dir}` and re-opens the path; with
unique names per directory this is the same information). -/
structure Entry where
  name : List Nat
  node : FSTree

/-- Projection to the sorted struct of the source. -/
def Entry.toDirEntry (e : Entry) : DirEntry :=
  ⟨e.name, isDirT e.node⟩

/-- The ordering induced by `compareDirEntries`, as a boolean relation:
`a` may precede `b` when the comparator does not strictly order `b` first. -/
def entLe (a b : Entry) : Bool :=
  compareDirEntries a.toDirEntry b.toDirEntry ≤ 0

/-- Insertion of one entry into a list according to `entLe`. -/
def insertSorted (e : Entry) : List Entry → List Entry
  | [] => [e]
  | x :: xs => if entLe e x then e :: x :: xs else x :: insertSorted e xs

/-- The sorting pass (`qsort(entries, num_entries, sizeof(DirEntry),
compareDirEntries)` at src/ntree.c line 124): an order-respecting sort by
the comparator. -/
def sortEntries (es : List Entry) : List Entry :=
  es.foldr insertSorted []

/-- The test `strcmp(d_name, ".") == 0 || strcmp(d_name, "..") == 0`
(bytes 46 46 spell ".."). -/
def isPseudo (n : List Nat) : Bool :=
  n == [46] || n == [46, 46]

/-- Phase 1 of `list_directory_recursive`: read the raw `readdir` stream in
order, skip "." and "..", skip entries whose `stat` fails, and keep
`{name, kind}` for the rest, in insertion order. -/
def listEntries (children : List (List Nat × Option FSTree)) : List Entry :=
  children.filterMap fun c =>
    if isPseudo c.1 then none
    else
      match c.2 with
      | none => none
      | some t => some ⟨c.1, t⟩

/-- One diagnostic on the error stream. -/
inductive Diag where
  | cannotOpen (path : List Nat)
  | statFailed
  | usage
deriving DecidableEq

/-- The `perror("Error getting file status")` warnings emitted during
phase 1, one per non-pseudo entry whose `stat` fails, in stream order. -/
def statDiags (children : List (List Nat × Option FSTree)) : List Diag :=
  children.filterMap fun c =>
    if !isPseudo c.1 && c.2.isNone then some Diag.statFailed else none

/-- UTF-8 bytes of the connector glyph `└── ` printed for a last entry. -/
def GL_LAST : List Nat := [226, 148, 148, 226, 148, 128, 226, 148, 128, 32]

/-- UTF-8 bytes of the connector glyph `├── ` printed for a non-last entry. -/
def GL_MID : List Nat := [226, 148, 156, 226, 148, 128, 226, 148, 128, 32]

/-- UTF-8 bytes of the prefix unit `    ` appended below a last entry. -/
def PFX_LAST : List Nat := [32, 32, 32, 32]

/-- UTF-8 bytes of the prefix unit `│   ` appended below a non-last entry. -/
def PFX_MID : List Nat := [226, 148, 130, 32, 32, 32]

/-- Connector chosen by the loop at src/ntree.c lines 135-139. -/
def connGlyph (isLast : Bool) : List Nat :=
  if isLast then GL_LAST else GL_MID

/-- Prefix unit chosen at src/ntree.c line 151. -/
def prefUnit (isLast : Bool) : List Nat :=
  if isLast then PFX_LAST else PFX_MID

/-- The child prefix built by
`snprintf(new_prefix, sizeof(new_prefix), "%s%s", prefix, ...)` into a
`PATH_MAX` buffer: the concatenation truncated to `PATH_MAX - 1` bytes
(snprintf keeps one byte for the terminator). -/
def childPrefix (pref : List Nat) (isLast : Bool) : List Nat :=
  (pref ++ prefUnit isLast).take (PATH_MAX - 1)

/-- The full path built by
`snprintf(full_path, sizeof(full_path), "%s/%s", path, name)` into a
`PATH_MAX` buffer: `path ++ "/" ++ name` truncated to `PATH_MAX - 1`
bytes; byte 47 is the slash. -/
def pathJoin (parent name : List Nat) : List Nat :=
  (parent ++ [47] ++ name).take (PATH_MAX - 1)

mutual

/-- Size of a filesystem node, the termination measure of the traversal. -/
def FSTree.size : FSTree → Nat
  | .file => 1
  | .dir _ children => 1 + sizeChildren children

/-- Size of a raw `readdir` stream. -/
def sizeChildren : List (List Nat × Option FSTree) → Nat
  | [] => 0
  | c :: rest => sizeChild c.2 + sizeChildren rest

/-- Size of one `stat` outcome. -/
def sizeChild : Option FSTree → Nat
  | none => 1
  | some t => 1 + FSTree.size t

end

/-- Termination measure of one entry: strictly larger than its subtree. -/
def entryWeight (e : Entry) : Nat := 1 + e.node.size

/-- Termination measure of an entry list. -/
def entriesWeight (es : List Entry) : Nat := (es.map entryWeight).sum

lemma entriesWeight_cons (e : Entry) (es : List Entry) :
    entriesWeight (e :: es) = entryWeight e + entriesWeight es := by
  simp [entriesWeight]

lemma entriesWeight_insertSorted (e : Entry) (es : List Entry) :
    entriesWeight (insertSorted e es) = entryWeight e + entriesWeight es := by
  induction es with
  | nil => simp [insertSorted, entriesWeight]
  | cons x xs ih =>
      by_cases h : entLe e x = true
      · simp [insertSorted, h, entriesWeight]
      · simp [insertSorted, h, entriesWeight_cons, ih]
        omega

lemma entriesWeight_sortEntries (es : List Entry) :
    entriesWeight (sortEntries es) = entriesWeight es := by
  induction es with
  | nil => rfl
  | cons e es ih =>
      simp only [sortEntries, List.foldr] at *
      rw [entriesWeight_insertSorted, ih, entriesWeight_cons]

lemma entriesWeight_listEntries_le (children : List (List Nat × Option FSTree)) :
    entriesWeight (listEntries children) ≤ sizeChildren children := by
  induction children with
  | nil => simp [listEntries, entriesWeight, sizeChildren]
  | cons c rest ih =>
      obtain ⟨n, st⟩ := c
      by_cases hp : isPseudo n = true
      · cases st <;>
          simp_all [listEntries, List.filterMap_cons, sizeChildren, sizeChild] <;>
          omega
      · cases st with
        | none =>
            simp_all [listEntries, List.filterMap_cons, sizeChildren, sizeChild]
            omega
        | some t =>
            simp_all [listEntries, List.filterMap_cons, sizeChildren, sizeChild,
              entriesWeight_cons, entryWeight]

mutual

/-- The renderer `list_directory_recursive` (src/ntree.c lines 46-163):
given the node the path denotes, produces the printed stdout lines (each
with its trailing newline byte 10) and the stderr diagnostics of the call.
A node that `opendir` rejects (a plain file, or a directory whose listing
fails) reports the error and produces nothing. An openable directory
lists, sorts and hands the entries to the printing loop; the `stat`
warnings of phase 1 are emitted before any diagnostics of phase 3. -/
def renderTree : FSTree → List Nat → List Nat → List (List Nat) × List Diag
  | FSTree.file, path, _ => ([], [Diag.cannotOpen path])
  | FSTree.dir false _, path, _ => ([], [Diag.cannotOpen path])
  | FSTree.dir true children, path, pref =>
      let r := renderLoop (sortEntries (listEntries children)) path pref
      (r.1, statDiags children ++ r.2)
termination_by t path pref => t.size
decreasing_by
  have h := entriesWeight_listEntries_le children
  simp [FSTree.size, entriesWeight_sortEntries]
  all_goals omega

/-- Phase 3 of `list_directory_recursive` (src/ntree.c lines 127-160): for
each entry print the prefix, the connector (`└── ` exactly when the entry
is the last one), the name and a newline, then recurse when the entry is a
directory, passing the joined path and the extended prefix. -/
def renderLoop : List Entry → List Nat → List Nat → List (List Nat) × List Diag
  | [], _, _ => ([], [])
  | e :: rest, path, pref =>
      let isLast := rest.isEmpty
      let line := pref ++ connGlyph isLast ++ e.name ++ [10]
      let sub :=
        if isDirT e.node then
          renderTree e.node (pathJoin path e.name) (childPrefix pref isLast)
        else ([], [])
      let r := renderLoop rest path pref
      (line :: (sub.1 ++ r.1), sub.2 ++ r.2)
termination_by es path pref => entriesWeight es
decreasing_by
  · simp [entriesWeight_cons, entryWeight]
    all_goals omega
  · simp [entriesWeight_cons, entryWeight]

end

/-- The entry point `main` (src/ntree.c lines 165-183). `args` are the
command-line operands (argv without the program name), `fs` the node the
root path denotes. Result: exit code, stdout lines, stderr diagnostics.
More than one operand reports usage and exits 1 before any filesystem
access; otherwise the root path (default ".", byte 46) is printed first
and the renderer runs with the empty prefix, the exit code being 0. -/
def mainRun (args : List (List Nat)) (fs : FSTree) :
    Nat × List (List Nat) × List Diag :=
  if args.length > 1 then (1, [], [Diag.usage])
  else
    let root := args.headD [46]
    let r := renderTree fs root []
    (0, (root ++ [10]) :: r.1, r.2)

/-- Entry of a listing at position i (out-of-range accesses, never used by
the loop, default harmlessly). -/
def entryAt (es : List Entry) (i : Nat) : Entry :=
  es.getD i ⟨[], FSTree.file⟩

/-- The `is_last_entry = (i == num_entries - 1)` test of the loop,
expressed by index. -/
def isLastIdx (es : List Entry) (i : Nat) : Bool :=
  i == es.length - 1

/-- The recursion outcome of the entry at position i: the rendering of its
subtree when it is a directory, nothing otherwise. -/
def subOf (es : List Entry) (path pref : List Nat) (i : Nat) :
    List (List Nat) × List Diag :=
  if isDirT (entryAt es i).node then
    renderTree (entryAt es i).node (pathJoin path (entryAt es i).name)
      (childPrefix pref (isLastIdx es i))
  else ([], [])

/-- The block of stdout lines the entry at position i contributes: its own
printed line followed by all lines of its subtree. -/
def blockOf (es : List Entry) (path pref : List Nat) (i : Nat) :
    List (List Nat) :=
  (pref ++ connGlyph (isLastIdx es i) ++ (entryAt es i).name ++ [10])
    :: (subOf es path pref i).1

/-- Position in the output at which the block of entry i starts. -/
def posOf (es : List Entry) (path pref : List Nat) (i : Nat) : Nat :=
  ((List.range i).map (fun j => (blockOf es path pref j).length)).sum

/-- Number of characters of a UTF-8 byte string: bytes that are not
continuation bytes (128..191). -/
def charLen (x : List Nat) : Nat :=
  (x.filter (fun b => b < 128 || 192 ≤ b)).length

/-- Bytes of a C string that strcmp actually reads: everything before the
first NUL. -/
def trunc (x : List Nat) : List Nat :=
  x.takeWhile (fun b => b != 0)

/-- A byte string that a filename can be: no NUL byte inside. -/
abbrev ValidName (n : List Nat) : Prop := ∀ b ∈ n, b ≠ 0

/-- The dynamic array of phase 1: its contents in insertion order and its
current capacity. -/
structure ListingSt where
  entries : List Entry
  capacity : Nat

/-- One append into the dynamic array (src/ntree.c lines 89-119): when the
count has reached the capacity the capacity is doubled first
(`capacity *= 2` under `num_entries >= capacity`), then the entry is
stored at the current count. -/
def appendEntry (s : ListingSt) (e : Entry) : ListingSt :=
  if s.entries.length ≥ s.capacity then
    ⟨s.entries ++ [e], s.capacity * 2⟩
  else
    ⟨s.entries ++ [e], s.capacity⟩

/-- One iteration of the readdir loop acting on the dynamic array. -/
def buildStep (s : ListingSt) (c : List Nat × Option FSTree) : ListingSt :=
  if isPseudo c.1 then s
  else
    match c.2 with
    | none => s
    | some t => appendEntry s ⟨c.1, t⟩

/-- Phase 1 as a fold over the readdir stream, starting from the empty
array with the initial capacity 10 of the source. -/
def buildListing (children : List (List Nat × Option FSTree)) : ListingSt :=
  children.foldl buildStep ⟨[], 10⟩

/-- Outcome of phase 1 when allocations can fail: either the listing, or
the names freed by the cleanup path before the function returns. -/
inductive AllocResult where
  | ok (entries : List Entry)
  | fail (freed : List (List Nat))

/-- The readdir loop under an allocation budget: each `realloc` and each
`strdup` consumes one unit; when one fails the cleanup frees the names of
every entry collected so far (`for i < num_entries: free(entries[i].name)`,
src/ntree.c lines 92-117) and the function gives up on this directory. -/
def allocGo : List (List Nat × Option FSTree) → List Entry → Nat → Nat →
    AllocResult
  | [], acc, _, _ => AllocResult.ok acc
  | c :: rest, acc, cap, budget =>
      if isPseudo c.1 then allocGo rest acc cap budget
      else
        match c.2 with
        | none => allocGo rest acc cap budget
        | some t =>
            if acc.length ≥ cap then
              if budget = 0 then AllocResult.fail (acc.map Entry.name)
              else if budget - 1 = 0 then AllocResult.fail (acc.map Entry.name)
              else allocGo rest (acc ++ [⟨c.1, t⟩]) (cap * 2) (budget - 2)
            else
              if budget = 0 then AllocResult.fail (acc.map Entry.name)
              else allocGo rest (acc ++ [⟨c.1, t⟩]) cap (budget - 1)

/-- Phase 1 with failing allocations: the initial `malloc` of the array
consumes the first unit (when it fails nothing was collected and nothing
is freed, src/ntree.c lines 64-69), then the loop runs on the rest. -/
def buildAlloc (children : List (List Nat × Option FSTree)) (budget : Nat) :
    AllocResult :=
  if budget = 0 then AllocResult.fail []
  else allocGo children [] 10 (budget - 1)

/-- The stdout lines of one directory call under an allocation budget: on
allocation failure the function returns before phase 3, so nothing is
printed; otherwise the ordinary sorted printing loop runs (its recursive
calls modelled with unconstrained allocation). -/
def renderDirAllocLines (children : List (List Nat × Option FSTree))
    (budget : Nat) (path pref : List Nat) : List (List Nat) :=
  match buildAlloc children budget with
  | AllocResult.fail _ => []
  | AllocResult.ok es => (renderLoop (sortEntries es) path pref).1

/-! Auxiliary lemmas: the strcmp order, the comparator, and the sort. -/

lemma trunc_nil : trunc [] = [] := rfl

lemma trunc_cons_ne {b : Nat} (bs : List Nat) (h : b ≠ 0) :
    trunc (b :: bs) = b :: trunc bs := by
  simp [trunc, List.takeWhile_cons, h]

lemma trunc_cons_zero (bs : List Nat) : trunc (0 :: bs) = [] := by
  simp [trunc, List.takeWhile_cons]

lemma trunc_of_valid {n : List Nat} (h : ValidName n) : trunc n = n := by
  simp only [trunc, List.takeWhile_eq_self_iff]
  intro b hb
  simpa using h b hb

lemma strcmp_neg (x : List Nat) : ∀ y : List Nat, strcmp y x = - strcmp x y := by
  induction x with
  | nil =>
      intro y
      cases y with
      | nil => simp [strcmp]
      | cons b bs => by_cases hb : b = 0 <;> simp [strcmp, hb]
  | cons a as ih =>
      intro y
      cases y with
      | nil => by_cases ha : a = 0 <;> simp [strcmp, ha]
      | cons b bs =>
          by_cases hab : a = b
          · subst hab
            by_cases ha : a = 0 <;> simp [strcmp, ha, ih bs]
          · have hba : b ≠ a := fun h => hab h.symm
            simp [strcmp, hab, hba]

lemma strcmp_eq_zero_iff (x : List Nat) :
    ∀ y : List Nat, strcmp x y = 0 ↔ trunc x = trunc y := by
  induction x with
  | nil =>
      intro y
      cases y with
      | nil => simp [strcmp]
      | cons b bs =>
          by_cases hb : b = 0
          · subst hb; simp [strcmp, trunc_cons_zero, trunc_nil]
          · rw [trunc_cons_ne bs hb, trunc_nil]
            simp [strcmp, hb]
  | cons a as ih =>
      intro y
      cases y with
      | nil =>
          by_cases ha : a = 0
          · subst ha; simp [strcmp, trunc_cons_zero, trunc_nil]
          · rw [trunc_cons_ne as ha, trunc_nil]
            simp [strcmp, ha]
      | cons b bs =>
          by_cases hab : a = b
          · subst hab
            by_cases ha : a = 0
            · subst ha; simp [strcmp, trunc_cons_zero]
            · rw [trunc_cons_ne as ha, trunc_cons_ne bs ha]
              simp [strcmp, ha, ih bs]
          · by_cases ha : a = 0
            · subst ha
              have hb : b ≠ 0 := fun h => hab h.symm
              rw [trunc_cons_zero, trunc_cons_ne bs hb]
              simp [strcmp, hab]
              all_goals omega
            · by_cases hb : b = 0
              · subst hb
                rw [trunc_cons_ne as ha, trunc_cons_zero]
                simp [strcmp, hab, ha]
              · rw [trunc_cons_ne as ha, trunc_cons_ne bs hb]
                simp [strcmp, hab]
                all_goals omega

lemma lex_cons_ne_iff {a b : Nat} {u v : List Nat} (hab : a ≠ b) :
    List.Lex (· < ·) (a :: u) (b :: v) ↔ a < b := by
  constructor
  · intro h
    cases h with
    | cons h => exact absurd rfl hab
    | rel h => exact h
  · intro h
    exact List.Lex.rel h

lemma strcmp_lt_iff (x : List Nat) :
    ∀ y : List Nat, strcmp x y < 0 ↔ List.Lex (· < ·) (trunc x) (trunc y) := by
  induction x with
  | nil =>
      intro y
      cases y with
      | nil => simp [strcmp, trunc_nil]
      | cons b bs =>
          by_cases hb : b = 0
          · subst hb
            simp [strcmp, trunc_cons_zero, trunc_nil]
          · rw [trunc_cons_ne bs hb, trunc_nil]
            simp [strcmp, hb, List.Lex.nil]
            all_goals omega
  | cons a as ih =>
      intro y
      cases y with
      | nil =>
          rw [trunc_nil]
          by_cases ha : a = 0
          · subst ha
            simp [strcmp, trunc_cons_zero, List.Lex.not_nil_right]
          · rw [trunc_cons_ne as ha]
            simp [strcmp, ha, List.Lex.not_nil_right]
      | cons b bs =>
          by_cases hab : a = b
          · subst hab
            by_cases ha : a = 0
            · subst ha
              simp [strcmp, trunc_cons_zero]
            · rw [trunc_cons_ne as ha, trunc_cons_ne bs ha]
              simp [strcmp, ha, List.Lex.cons_iff, ih bs]
          · by_cases ha : a = 0
            · subst ha
              have hb : b ≠ 0 := fun h => hab h.symm
              rw [trunc_cons_zero, trunc_cons_ne bs hb]
              simp [strcmp, hab, List.Lex.nil]
              all_goals omega
            · by_cases hb : b = 0
              · subst hb
                rw [trunc_cons_ne as ha, trunc_cons_zero]
                simp [strcmp, hab, List.Lex.not_nil_right]
              · rw [trunc_cons_ne as ha, trunc_cons_ne bs hb]
                rw [lex_cons_ne_iff hab]
                simp [strcmp, hab]

lemma strcmp_le_trans {x y z : List Nat}
    (h1 : strcmp x y ≤ 0) (h2 : strcmp y z ≤ 0) : strcmp x z ≤ 0 := by
  have c1 : strcmp x y < 0 ∨ strcmp x y = 0 := by omega
  have c2 : strcmp y z < 0 ∨ strcmp y z = 0 := by omega
  rw [strcmp_lt_iff] at c1 c2
  rw [strcmp_eq_zero_iff] at c1 c2
  have : strcmp x z < 0 ∨ strcmp x z = 0 := by
    rw [strcmp_lt_iff, strcmp_eq_zero_iff]
    rcases c1 with h1l | h1e <;> rcases c2 with h2l | h2e
    · exact Or.inl (IsTrans.trans _ _ _ h1l h2l)
    · rw [h2e] at h1l
      exact Or.inl h1l
    · rw [h1e]
      exact Or.inl h2l
    · rw [h1e, h2e]
      exact Or.inr rfl
  omega

lemma entLe_total (a b : Entry) : entLe a b = true ∨ entLe b a = true := by
  simp only [entLe, decide_eq_true_eq]
  have h := strcmp_neg a.toDirEntry.name b.toDirEntry.name
  cases hda : a.toDirEntry.is_dir <;> cases hdb : b.toDirEntry.is_dir <;>
    simp [compareDirEntries, hda, hdb] <;> omega

lemma entLe_trans (a b c : Entry)
    (h1 : entLe a b = true) (h2 : entLe b c = true) : entLe a c = true := by
  simp only [entLe, decide_eq_true_eq] at h1 h2 ⊢
  cases hda : a.toDirEntry.is_dir <;> cases hdb : b.toDirEntry.is_dir <;>
      cases hdc : c.toDirEntry.is_dir <;>
      simp_all [compareDirEntries] <;>
    first
      | omega
      | exact strcmp_le_trans h1 h2

lemma mem_insertSorted {a e : Entry} : ∀ {l : List Entry},
    a ∈ insertSorted e l ↔ a = e ∨ a ∈ l := by
  intro l
  induction l with
  | nil => simp [insertSorted]
  | cons x xs ih =>
      by_cases h : entLe e x = true
      · simp [insertSorted, h]
      · simp [insertSorted, h, ih]
        tauto

lemma pairwise_insertSorted {e : Entry} : ∀ {l : List Entry},
    l.Pairwise (fun a b => entLe a b = true) →
    (insertSorted e l).Pairwise (fun a b => entLe a b = true) := by
  intro l
  induction l with
  | nil =>
      intro _
      simp [insertSorted]
  | cons x xs ih =>
      intro h
      rw [List.pairwise_cons] at h
      obtain ⟨hx, hxs⟩ := h
      by_cases hex : entLe e x = true
      · have hstep : insertSorted e (x :: xs) = e :: x :: xs := by
          simp [insertSorted, hex]
        rw [hstep, List.pairwise_cons]
        refine ⟨?_, by rw [List.pairwise_cons]; exact ⟨hx, hxs⟩⟩
        intro b hb
        rcases List.mem_cons.mp hb with rfl | hbxs
        · exact hex
        · exact entLe_trans e x b hex (hx b hbxs)
      · have hstep : insertSorted e (x :: xs) = x :: insertSorted e xs := by
          simp [insertSorted, hex]
        rw [hstep, List.pairwise_cons]
        refine ⟨?_, ih hxs⟩
        intro b hb
        rcases mem_insertSorted.mp hb with rfl | hbxs
        · rcases entLe_total b x with h | h
          · exact absurd h hex
          · exact h
        · exact hx b hbxs

lemma sortEntries_pairwise (es : List Entry) :
    (sortEntries es).Pairwise (fun a b => entLe a b = true) := by
  induction es with
  | nil => simp [sortEntries]
  | cons e es ih => exact pairwise_insertSorted ih

lemma insertSorted_perm (e : Entry) (l : List Entry) :
    (insertSorted e l).Perm (e :: l) := by
  induction l with
  | nil => simp [insertSorted]
  | cons x xs ih =>
      by_cases h : entLe e x = true
      · simp [insertSorted, h]
      · simp only [insertSorted, h, if_false]
        exact (ih.cons x).trans (List.Perm.swap e x xs)

lemma sortEntries_perm (es : List Entry) : (sortEntries es).Perm es := by
  induction es with
  | nil => simp [sortEntries]
  | cons e es ih =>
      exact (insertSorted_perm e (sortEntries es)).trans (ih.cons e)

lemma mem_sortEntries {a : Entry} {es : List Entry} :
    a ∈ sortEntries es ↔ a ∈ es :=
  (sortEntries_perm es).mem_iff

lemma length_sortEntries (es : List Entry) :
    (sortEntries es).length = es.length :=
  (sortEntries_perm es).length_eq

/-! Auxiliary lemmas: the shape of the rendered output. -/

lemma isLastIdx_zero (e : Entry) (rest : List Entry) :
    isLastIdx (e :: rest) 0 = rest.isEmpty := by
  cases rest <;> rfl

lemma entryAt_zero (e : Entry) (rest : List Entry) :
    entryAt (e :: rest) 0 = e := rfl

lemma entryAt_succ (e : Entry) (rest : List Entry) (j : Nat) :
    entryAt (e :: rest) (j + 1) = entryAt rest j := rfl

lemma isLastIdx_succ (e : Entry) (rest : List Entry) (j : Nat)
    (h : j < rest.length) :
    isLastIdx (e :: rest) (j + 1) = isLastIdx rest j := by
  simp only [isLastIdx, List.length_cons, Nat.add_sub_cancel]
  rw [Bool.eq_iff_iff]
  simp only [beq_iff_eq]
  omega

lemma blockOf_succ (e : Entry) (rest : List Entry) (path pref : List Nat)
    (j : Nat) (h : j < rest.length) :
    blockOf (e :: rest) path pref (j + 1) = blockOf rest path pref j := by
  simp only [blockOf, subOf, entryAt_succ, isLastIdx_succ e rest j h]

lemma renderLoop_lines (es : List Entry) (path pref : List Nat) :
    (renderLoop es path pref).1
      = ((List.range es.length).map (blockOf es path pref)).flatten := by
  induction es with
  | nil => simp [renderLoop]
  | cons e rest ih =>
      rw [List.length_cons, List.range_succ_eq_map]
      simp only [List.map_cons, List.flatten_cons, List.map_map]
      have hshift :
          List.map (blockOf (e :: rest) path pref ∘ Nat.succ)
            (List.range rest.length)
          = List.map (blockOf rest path pref) (List.range rest.length) := by
        apply List.map_congr_left
        intro j hj
        exact blockOf_succ e rest path pref j (List.mem_range.mp hj)
      rw [hshift, ← ih]
      simp only [renderLoop, blockOf, subOf, entryAt_zero, isLastIdx_zero]
      rfl

lemma flatten_map_range_drop {α : Type} (f : Nat → List α) (n : Nat) :
    ∀ i, i ≤ n →
      (((List.range n).map f).flatten).drop
          (((List.range i).map (fun j => (f j).length)).sum)
        = ((List.range (n - i)).map (fun j => f (i + j))).flatten := by
  intro i
  induction i with
  | zero => intro _; simp
  | succ i ih =>
      intro h
      have hi : i ≤ n := by omega
      have hsum : ((List.range (i + 1)).map (fun j => (f j).length)).sum
          = ((List.range i).map (fun j => (f j).length)).sum + (f i).length := by
        rw [List.range_succ, List.map_append, List.sum_append]
        simp
      rw [hsum, ← List.drop_drop, ih hi]
      have hn : n - i = (n - (i + 1)) + 1 := by omega
      rw [hn, List.range_succ_eq_map]
      simp only [List.map_cons, List.flatten_cons, List.map_map, Nat.add_zero]
      rw [List.drop_left]
      congr 1
      apply List.map_congr_left
      intro j _
      simp only [Function.comp_apply]
      congr 1
      omega

lemma renderLoop_drop (es : List Entry) (path pref : List Nat) (i : Nat)
    (h : i ≤ es.length) :
    ((renderLoop es path pref).1).drop (posOf es path pref i)
      = ((List.range (es.length - i)).map
          (fun j => blockOf es path pref (i + j))).flatten := by
  rw [renderLoop_lines]
  exact flatten_map_range_drop (blockOf es path pref) es.length i h

lemma renderLoop_get (es : List Entry) (path pref : List Nat) (i : Nat)
    (h : i < es.length) :
    ((renderLoop es path pref).1)[posOf es path pref i]?
      = some (pref ++ connGlyph (isLastIdx es i) ++ (entryAt es i).name ++ [10]) := by
  have hz : ((renderLoop es path pref).1)[posOf es path pref i]?
      = (((renderLoop es path pref).1).drop (posOf es path pref i))[0]? := by
    rw [List.getElem?_drop, Nat.add_zero]
  rw [hz, renderLoop_drop es path pref i (le_of_lt h)]
  have hn : es.length - i = (es.length - i - 1) + 1 := by omega
  rw [hn, List.range_succ_eq_map]
  simp [blockOf]

lemma filter_beq_range (n m : Nat) (h : m < n) :
    (List.range n).filter (fun j => j == m) = [m] := by
  induction n with
  | zero => omega
  | succ n ih =>
      rw [List.range_succ, List.filter_append]
      by_cases hm : m = n
      · subst hm
        rw [List.filter_eq_nil_iff.mpr, List.nil_append]
        · simp
        · intro a ha
          have := List.mem_range.mp ha
          simp
          omega
      · have hmn : m < n := by omega
        rw [ih hmn]
        have : ¬ ((n == m) = true) := by simp; omega
        simp [List.filter_cons, this]

/-! Auxiliary lemmas: the listing counts and diagnostics. -/

lemma filtered_failed_le (children : List (List Nat × Option FSTree)) :
    (children.filter (fun c => !isPseudo c.1 && c.2.isNone)).length
      ≤ (children.filter (fun c => !isPseudo c.1)).length := by
  induction children with
  | nil => simp
  | cons c rest ih =>
      rw [List.filter_cons, List.filter_cons]
      by_cases h1 : (!isPseudo c.1) = true
      · by_cases h2 : c.2.isNone = true
        · simp [h1, h2]
          omega
        · simp [h1, h2]
          omega
      · have : (!isPseudo c.1 && c.2.isNone) = false := by
          simp at h1
          simp [h1]
        simp [this, h1]
        omega

lemma listEntries_length (children : List (List Nat × Option FSTree)) :
    (listEntries children).length
      = (children.filter (fun c => !isPseudo c.1)).length
        - (children.filter (fun c => !isPseudo c.1 && c.2.isNone)).length := by
  induction children with
  | nil => rfl
  | cons c rest ih =>
      obtain ⟨n, st⟩ := c
      have hle := filtered_failed_le rest
      by_cases hp : isPseudo n = true
      · simp [listEntries, List.filterMap_cons, List.filter_cons, hp] at *
        omega
      · cases st with
        | none =>
            simp [listEntries, List.filterMap_cons, List.filter_cons, hp,
              Option.isNone] at *
            omega
        | some t =>
            simp [listEntries, List.filterMap_cons, List.filter_cons, hp,
              Option.isNone] at *
            omega

lemma statDiags_eq (children : List (List Nat × Option FSTree)) :
    statDiags children
      = List.replicate
          ((children.filter (fun c => !isPseudo c.1 && c.2.isNone)).length)
          Diag.statFailed := by
  induction children with
  | nil => rfl
  | cons c rest ih =>
      by_cases h : (!isPseudo c.1 && c.2.isNone) = true
      · simp [statDiags, List.filterMap_cons, List.filter_cons, h, ih,
          List.replicate_succ] at *
        exact ih
      · simp [statDiags, List.filterMap_cons, List.filter_cons, h] at *
        exact ih

lemma mem_listEntries {n : List Nat} {t : FSTree}
    {children : List (List Nat × Option FSTree)} :
    (⟨n, t⟩ : Entry) ∈ listEntries children
      ↔ isPseudo n = false ∧ (n, some t) ∈ children := by
  simp only [listEntries, List.mem_filterMap]
  constructor
  · rintro ⟨⟨m, st⟩, hmem, hf⟩
    by_cases hp : isPseudo m = true
    · simp [hp] at hf
    · cases st with
      | none => simp [hp] at hf
      | some u =>
          simp only [hp, if_false] at hf
          have hmn : m = n ∧ u = t := by
            have := Option.some.inj hf
            exact ⟨congrArg Entry.name this, congrArg Entry.node this⟩
          obtain ⟨rfl, rfl⟩ := hmn
          exact ⟨by simpa using hp, hmem⟩
  · rintro ⟨hp, hmem⟩
    exact ⟨(n, some t), hmem, by simp [hp]⟩

/-! Auxiliary lemmas: the dynamic array and allocation failure. -/

lemma appendEntry_entries (s : ListingSt) (e : Entry) :
    (appendEntry s e).entries = s.entries ++ [e] := by
  simp only [appendEntry]
  split <;> rfl

lemma buildListing_go (children : List (List Nat × Option FSTree)) :
    ∀ s : ListingSt,
      (children.foldl buildStep s).entries = s.entries ++ listEntries children := by
  induction children with
  | nil => intro s; simp [listEntries]
  | cons c rest ih =>
      intro s
      obtain ⟨n, st⟩ := c
      by_cases hp : isPseudo n = true
      · simp [List.foldl_cons, buildStep, hp, ih, listEntries,
          List.filterMap_cons]
      · cases st with
        | none =>
            simp [List.foldl_cons, buildStep, hp, ih, listEntries,
              List.filterMap_cons]
        | some t =>
            have hstep : buildStep s (n, some t) = appendEntry s ⟨n, t⟩ := by
              simp [buildStep, hp]
            rw [List.foldl_cons, hstep, ih, appendEntry_entries,
              List.append_assoc]
            simp [listEntries, List.filterMap_cons, hp]

lemma appendEntry_inv (s : ListingSt) (e : Entry)
    (h1 : s.entries.length ≤ s.capacity) (h2 : 10 ≤ s.capacity) :
    (appendEntry s e).entries.length ≤ (appendEntry s e).capacity
      ∧ 10 ≤ (appendEntry s e).capacity := by
  simp only [appendEntry]
  split <;> simp <;> omega

lemma buildListing_inv (children : List (List Nat × Option FSTree)) :
    ∀ s : ListingSt,
      s.entries.length ≤ s.capacity → 10 ≤ s.capacity →
      (children.foldl buildStep s).entries.length
          ≤ (children.foldl buildStep s).capacity
        ∧ 10 ≤ (children.foldl buildStep s).capacity := by
  induction children with
  | nil => intro s h1 h2; exact ⟨h1, h2⟩
  | cons c rest ih =>
      intro s h1 h2
      rw [List.foldl_cons]
      by_cases hp : isPseudo c.1 = true
      · simp only [buildStep, hp, if_true]
        exact ih s h1 h2
      · rcases hst : c.2 with _ | t
        · simp only [buildStep, hp, if_false, hst]
          exact ih s h1 h2
        · simp only [buildStep, hp, if_false, hst]
          obtain ⟨k1, k2⟩ := appendEntry_inv s ⟨c.1, t⟩ h1 h2
          exact ih _ k1 k2

lemma allocGo_fail (children : List (List Nat × Option FSTree)) :
    ∀ (acc : List Entry) (cap budget : Nat) (freed : List (List Nat)),
      allocGo children acc cap budget = AllocResult.fail freed →
      ∃ k, freed = acc.map Entry.name
          ++ ((listEntries children).map Entry.name).take k := by
  induction children with
  | nil =>
      intro acc cap budget freed h
      simp [allocGo] at h
  | cons c rest ih =>
      intro acc cap budget freed h
      obtain ⟨n, st⟩ := c
      by_cases hp : isPseudo n = true
      · rw [show allocGo ((n, st) :: rest) acc cap budget
            = allocGo rest acc cap budget from by
              cases st <;> simp [allocGo, hp]] at h
        obtain ⟨k, hk⟩ := ih acc cap budget freed h
        exact ⟨k, by simpa [listEntries, List.filterMap_cons, hp] using hk⟩
      · cases st with
        | none =>
            rw [show allocGo ((n, none) :: rest) acc cap budget
                = allocGo rest acc cap budget from by simp [allocGo, hp]] at h
            obtain ⟨k, hk⟩ := ih acc cap budget freed h
            exact ⟨k, by simpa [listEntries, List.filterMap_cons, hp] using hk⟩
        | some t =>
            have hlist : listEntries ((n, some t) :: rest)
                = ⟨n, t⟩ :: listEntries rest := by
              simp [listEntries, List.filterMap_cons, hp]
            have hgo : allocGo ((n, some t) :: rest) acc cap budget
                = if acc.length ≥ cap then
                    if budget = 0 then AllocResult.fail (acc.map Entry.name)
                    else if budget - 1 = 0 then
                      AllocResult.fail (acc.map Entry.name)
                    else allocGo rest (acc ++ [⟨n, t⟩]) (cap * 2) (budget - 2)
                  else
                    if budget = 0 then AllocResult.fail (acc.map Entry.name)
                    else allocGo rest (acc ++ [⟨n, t⟩]) cap (budget - 1) := by
              simp [allocGo, hp]
            rw [hgo] at h
            by_cases hfull : acc.length ≥ cap
            · rw [if_pos hfull] at h
              by_cases hb0 : budget = 0
              · rw [if_pos hb0] at h
                have hfr := (AllocResult.fail.inj h).symm
                exact ⟨0, by simp [hfr]⟩
              · rw [if_neg hb0] at h
                by_cases hb1 : budget - 1 = 0
                · rw [if_pos hb1] at h
                  have hfr := (AllocResult.fail.inj h).symm
                  exact ⟨0, by simp [hfr]⟩
                · rw [if_neg hb1] at h
                  obtain ⟨k, hk⟩ := ih _ _ _ freed h
                  refine ⟨k + 1, ?_⟩
                  rw [hk, hlist]
                  simp [List.take_succ_cons]
            · rw [if_neg hfull] at h
              by_cases hb0 : budget = 0
              · rw [if_pos hb0] at h
                have hfr := (AllocResult.fail.inj h).symm
                exact ⟨0, by simp [hfr]⟩
              · rw [if_neg hb0] at h
                obtain ⟨k, hk⟩ := ih _ _ _ freed h
                refine ⟨k + 1, ?_⟩
                rw [hk, hlist]
                simp [List.take_succ_cons]

lemma buildAlloc_fail (children : List (List Nat × Option FSTree))
    (budget : Nat) (freed : List (List Nat))
    (h : buildAlloc children budget = AllocResult.fail freed) :
    ∃ k, freed = ((listEntries children).map Entry.name).take k := by
  by_cases hb : budget = 0
  · simp only [buildAlloc, hb, if_true] at h
    refine ⟨0, ?_⟩
    have hfr : freed = [] := (AllocResult.fail.inj h.symm)
    simp [hfr]
  · simp only [buildAlloc, hb, if_false] at h
    obtain ⟨k, hk⟩ := allocGo_fail children [] 10 (budget - 1) freed h
    exact ⟨k, by simpa using hk⟩

/-! Auxiliary lemma: a node the renderer cannot open. -/

lemma renderTree_unopenable {t : FSTree} (h : openableB t = false)
    (path pref : List Nat) :
    renderTree t path pref = ([], [Diag.cannotOpen path]) := by
  cases t with
  | file => simp [renderTree]
  | dir b children =>
      cases b with
      | false => simp [renderTree]
      | true => simp [openableB] at h

lemma charLen_append (x y : List Nat) :
    charLen (x ++ y) = charLen x + charLen y := by
  simp [charLen, List.filter_append]

lemma sum_map_add_one {α : Type} (l : List α) (f : α → Nat) :
    (l.map (fun a => f a + 1)).sum = (l.map f).sum + l.length := by
  induction l with
  | nil => simp
  | cons a l ih =>
      simp [ih]
      omega

/-- Concrete two-entry listing (a file named "b", a directory named "a")
used to exercise the sort claim on a closed input. -/
def sampleListing : List Entry :=
  [⟨[98], FSTree.file⟩, ⟨[97], FSTree.dir true []⟩]

/-- Concrete entry whose node is a directory that cannot be opened. -/
def sampleBadEntry : Entry := ⟨[97], FSTree.dir false []⟩

/-- Concrete readdir stream of two plain files, used to exhibit an
allocation failure after one name was collected. -/
def sampleChildren : List (List Nat × Option FSTree) :=
  [([97], some FSTree.file), ([98], some FSTree.file)]

/-! The claims. -/

/-- C1: for every listing, the sort orders the entries so that every
directory precedes every file and entries of the same kind come in
byte-wise lexicographic order of their names (case-sensitive, no
collation); the comparator decides a kind mismatch outright, whatever the
names are, before any name comparison. Names are NUL-free as every C
filename is. -/
theorem claim1_sort_dirs_first_then_lex (es : List Entry)
    (hv : ∀ e ∈ es, ValidName e.name) :
    ((sortEntries es).Pairwise (fun a b =>
        (isDirT b.node = true → isDirT a.node = true)
        ∧ (isDirT a.node = isDirT b.node →
            a.name = b.name ∨ List.Lex (· < ·) a.name b.name)))
    ∧ (∀ n1 n2 : List Nat,
        compareDirEntries ⟨n1, true⟩ ⟨n2, false⟩ = -1
        ∧ compareDirEntries ⟨n1, false⟩ ⟨n2, true⟩ = 1) := by
  constructor
  · refine List.Pairwise.imp_of_mem ?_ (sortEntries_pairwise es)
    intro a b ha hb hle
    have hva : ValidName a.name := hv a (mem_sortEntries.mp ha)
    have hvb : ValidName b.name := hv b (mem_sortEntries.mp hb)
    simp only [entLe, decide_eq_true_eq] at hle
    constructor
    · intro hbd
      by_contra had
      have had2 : isDirT a.node = false := by
        cases hda : isDirT a.node
        · rfl
        · exact absurd hda had
      have hone : compareDirEntries a.toDirEntry b.toDirEntry = 1 := by
        simp [compareDirEntries, Entry.toDirEntry, had2, hbd]
      omega
    · intro hkind
      have hcmp : strcmp a.name b.name ≤ 0 := by
        cases hda : isDirT a.node <;>
          · rw [hda] at hkind
            simpa [compareDirEntries, Entry.toDirEntry, hda, ← hkind] using hle
      have hlt := strcmp_lt_iff a.name b.name
      have heq := strcmp_eq_zero_iff a.name b.name
      rw [trunc_of_valid hva, trunc_of_valid hvb] at hlt heq
      rcases lt_or_eq_of_le hcmp with h | h
      · exact Or.inr (hlt.mp h)
      · exact Or.inl (heq.mp h)
  · intro n1 n2
    constructor <;> simp [compareDirEntries]

/-- Witness for C1 on the concrete listing. -/
theorem claim1_witness :
    ((sortEntries sampleListing).Pairwise (fun a b =>
        (isDirT b.node = true → isDirT a.node = true)
        ∧ (isDirT a.node = isDirT b.node →
            a.name = b.name ∨ List.Lex (· < ·) a.name b.name)))
    ∧ (∀ n1 n2 : List Nat,
        compareDirEntries ⟨n1, true⟩ ⟨n2, false⟩ = -1
        ∧ compareDirEntries ⟨n1, false⟩ ⟨n2, true⟩ = 1) :=
  claim1_sort_dirs_first_then_lex sampleListing (by decide)

/-- C2: every printed line of one directory loop is the accumulated prefix,
then the connector glyph (the last-entry glyph exactly when the entry's
index is the final one of the sorted sequence), then the name, then the
newline; and exactly one index per non-empty level selects the connector
glyph of a last entry. -/
theorem claim2_line_format (es : List Entry) (path pref : List Nat) :
    (∀ i (h : i < es.length),
      ((renderLoop es path pref).1)[posOf es path pref i]?
        = some (pref ++ connGlyph (isLastIdx es i) ++ (es.get ⟨i, h⟩).name ++ [10]))
    ∧ (∀ i, isLastIdx es i = true ↔ i = es.length - 1)
    ∧ (es ≠ [] →
      (List.range es.length).filter (fun j => connGlyph (isLastIdx es j) == GL_LAST)
        = [es.length - 1]) := by
  refine ⟨?_, ?_, ?_⟩
  · intro i h
    rw [renderLoop_get es path pref i h]
    have hat : entryAt es i = es.get ⟨i, h⟩ := by
      rw [entryAt, List.getD_eq_getElem es _ h]
      simp
    rw [hat]
  · intro i
    simp [isLastIdx]
  · intro hne
    have hlen : 0 < es.length := List.length_pos.mpr hne
    have hcong : ∀ j ∈ List.range es.length,
        (connGlyph (isLastIdx es j) == GL_LAST) = (j == es.length - 1) := by
      intro j _
      simp only [isLastIdx]
      cases hj : (j == es.length - 1) <;> simp [connGlyph, hj] <;> decide
    rw [List.filter_congr hcong]
    exact filter_beq_range es.length (es.length - 1) (by omega)

/-- C3 as frozen is false on the code: the child prefix is built by
snprintf into a PATH_MAX buffer, so it is capped at 4095 bytes. At the
4092-byte prefix accumulated after 682 non-last directory levels, the
prefix passed to the recursive call is not the parent prefix extended by
one unit. -/
theorem claim3_counterexample :
    childPrefix ((List.replicate 682 PFX_MID).flatten) false
      ≠ (List.replicate 682 PFX_MID).flatten ++ PFX_MID := by
  intro hcl
  have h1 : ((List.replicate 682 PFX_MID).flatten).length = 4092 := by
    rw [List.length_flatten, List.map_replicate, List.sum_replicate,
      smul_eq_mul]
    norm_num [PFX_MID]
  have hR : (((List.replicate 682 PFX_MID).flatten) ++ PFX_MID).length = 4098 := by
    rw [List.length_append, h1]
    norm_num [PFX_MID]
  have hL : (childPrefix ((List.replicate 682 PFX_MID).flatten) false).length
      = 4095 := by
    rw [childPrefix, List.length_take, List.length_append, h1]
    norm_num [prefUnit, PFX_MID, PATH_MAX]
  rw [hcl, hR] at hL
  exact absurd hL (by norm_num)

/-- C3 amended: the child prefix is the parent prefix plus one unit,
truncated to PATH_MAX - 1 = 4095 bytes. Each unit is 4 characters, so
whenever the concatenation still fits in the buffer the prefix grows by
exactly one unit and by exactly 4 characters per level; the prefix never
exceeds 4095 bytes (the cap the frozen claim denies). -/
theorem claim3_amended_prefix_growth (pref : List Nat) (isLast : Bool) :
    ((pref ++ prefUnit isLast).length ≤ PATH_MAX - 1 →
        childPrefix pref isLast = pref ++ prefUnit isLast
        ∧ charLen (childPrefix pref isLast) = charLen pref + 4)
    ∧ charLen (prefUnit isLast) = 4
    ∧ (childPrefix pref isLast).length ≤ PATH_MAX - 1 := by
  have hunit : charLen (prefUnit isLast) = 4 := by
    cases isLast <;> decide
  refine ⟨?_, hunit, ?_⟩
  · intro h
    have heq : childPrefix pref isLast = pref ++ prefUnit isLast := by
      rw [childPrefix]
      exact List.take_of_length_le h
    refine ⟨heq, ?_⟩
    rw [heq, charLen_append, hunit]
  · rw [childPrefix, List.length_take]
    omega

/-- C4: the lines of one directory loop are exactly the concatenation, in
sorted order, of per-entry blocks, each block being the entry's own line
followed by all lines of its subtree; dropping the output up to an entry's
start position yields that entry's block followed by the blocks of its
later siblings, so every node's line precedes its descendants' lines and a
whole subtree precedes the next sibling. -/
theorem claim4_preorder_traversal (es : List Entry) (path pref : List Nat) :
    (renderLoop es path pref).1
        = ((List.range es.length).map (blockOf es path pref)).flatten
    ∧ (∀ i, i ≤ es.length →
        ((renderLoop es path pref).1).drop (posOf es path pref i)
          = ((List.range (es.length - i)).map
              (fun j => blockOf es path pref (i + j))).flatten) :=
  ⟨renderLoop_lines es path pref, fun i h => renderLoop_drop es path pref i h⟩

/-- C5 as frozen is false on the code: the path join never fails. It is a
snprintf into a PATH_MAX buffer, so an over-long parent/name pair is
silently truncated; at a 4095-byte parent the joined path is not
parent ++ "/" ++ name (it is the parent again, cut at the buffer). -/
theorem claim5_counterexample :
    pathJoin (List.replicate 4095 97) [98]
      ≠ List.replicate 4095 97 ++ [47] ++ [98] := by
  intro hcl
  have hlen := congrArg List.length hcl
  rw [pathJoin, List.length_take] at hlen
  simp only [List.length_append, List.length_replicate, List.length_cons,
    List.length_nil, PATH_MAX] at hlen
  omega

/-- C5 amended: the join produces parent ++ "/" ++ name truncated to
PATH_MAX - 1 bytes and never fails; the result equals parent ++ "/" ++
name exactly when len(parent) + 1 + len(name) + 1 is at most MAX_PATH,
it is silently cut otherwise, and its length never exceeds PATH_MAX - 1
(the subsequent opendir on a wrong truncated path fails and only that
subtree is skipped, as the unopenable-directory claim shows). -/
theorem claim5_amended_join_truncates (p n : List Nat) :
    (p.length + 1 + n.length + 1 ≤ PATH_MAX → pathJoin p n = p ++ [47] ++ n)
    ∧ (PATH_MAX < p.length + 1 + n.length + 1 → pathJoin p n ≠ p ++ [47] ++ n)
    ∧ (pathJoin p n).length ≤ PATH_MAX - 1 := by
  refine ⟨?_, ?_, ?_⟩
  · intro h
    rw [pathJoin]
    apply List.take_of_length_le
    simp [PATH_MAX] at h ⊢
    omega
  · intro h hcl
    have hlen := congrArg List.length hcl
    rw [pathJoin, List.length_take] at hlen
    simp [PATH_MAX] at h hlen
    omega
  · rw [pathJoin, List.length_take]
    omega

/-- C6: the lister keeps exactly the non-"." / non-".." children whose
stat succeeds (in stream order), one warning is reported per non-pseudo
child whose stat fails, a directory's render is the sorted loop's lines
with the stat warnings leading the diagnostics, and the loop prints
exactly one direct line per kept entry: the line count is the kept-entry
count plus the subtree lines. -/
theorem claim6_lister_skips_and_counts
    (children : List (List Nat × Option FSTree)) (path pref : List Nat) :
    (∀ (n : List Nat) (t : FSTree),
        (⟨n, t⟩ : Entry) ∈ listEntries children
          ↔ isPseudo n = false ∧ (n, some t) ∈ children)
    ∧ (listEntries children).length
        = (children.filter (fun c => !isPseudo c.1)).length
          - (children.filter (fun c => !isPseudo c.1 && c.2.isNone)).length
    ∧ statDiags children
        = List.replicate
            ((children.filter (fun c => !isPseudo c.1 && c.2.isNone)).length)
            Diag.statFailed
    ∧ renderTree (FSTree.dir true children) path pref
        = ((renderLoop (sortEntries (listEntries children)) path pref).1,
           statDiags children
             ++ (renderLoop (sortEntries (listEntries children)) path pref).2)
    ∧ (renderLoop (sortEntries (listEntries children)) path pref).1.length
        = (listEntries children).length
          + ((List.range (sortEntries (listEntries children)).length).map
              (fun i =>
                (subOf (sortEntries (listEntries children)) path pref i).1.length)).sum := by
  refine ⟨fun n t => mem_listEntries, listEntries_length children,
    statDiags_eq children, by simp only [renderTree], ?_⟩
  rw [renderLoop_lines, List.length_flatten, List.map_map]
  have hblock : ∀ i,
      (List.length ∘ blockOf (sortEntries (listEntries children)) path pref) i
        = (subOf (sortEntries (listEntries children)) path pref i).1.length + 1 := by
    intro i
    simp [blockOf]
  rw [List.map_congr_left (fun i _ => hblock i), sum_map_add_one,
    List.length_range, length_sortEntries]
  omega

/-- C7: a render call on a path whose listing cannot be opened (a file, or
a directory whose opendir fails) reports the error to the diagnostic
stream and prints nothing; inside a loop, such a directory entry still
gets its own line, contributes no subtree lines, and the remaining
siblings render exactly as they would have. -/
theorem claim7_unopenable_subtree (t : FSTree) (e : Entry) (rest : List Entry)
    (path pref : List Nat)
    (hopen : openableB t = false)
    (hedir : isDirT e.node = true) (heopen : openableB e.node = false) :
    renderTree t path pref = ([], [Diag.cannotOpen path])
    ∧ renderLoop (e :: rest) path pref
        = ((pref ++ connGlyph rest.isEmpty ++ e.name ++ [10])
             :: (renderLoop rest path pref).1,
           Diag.cannotOpen (pathJoin path e.name)
             :: (renderLoop rest path pref).2) := by
  refine ⟨renderTree_unopenable hopen path pref, ?_⟩
  have hsub := renderTree_unopenable heopen (pathJoin path e.name)
      (childPrefix pref rest.isEmpty)
  simp [renderLoop, hedir, hsub]

/-- Witness for C7: a file as root, and an unopenable directory entry. -/
theorem claim7_witness :
    renderTree FSTree.file [46] [] = ([], [Diag.cannotOpen [46]])
    ∧ renderLoop [sampleBadEntry] [46] []
        = (([] ++ connGlyph (List.isEmpty ([] : List Entry))
              ++ sampleBadEntry.name ++ [10])
             :: (renderLoop [] [46] ([] : List Nat)).1,
           Diag.cannotOpen (pathJoin [46] sampleBadEntry.name)
             :: (renderLoop [] [46] ([] : List Nat)).2) :=
  claim7_unopenable_subtree FSTree.file sampleBadEntry [] [46] [] rfl rfl rfl

/-- C8: with no operand the root is "." (byte 46), with one operand the
root is that operand; in both cases the first stdout line is the root path
and the renderer runs with the empty prefix, the exit code being 0 however
many diagnostics the traversal reports; with two or more operands only a
usage diagnostic is produced and the exit code is 1, nothing rendered. -/
theorem claim8_cli_contract (args : List (List Nat)) (fs : FSTree) :
    (args = [] →
      mainRun args fs
        = (0, ([46] ++ [10]) :: (renderTree fs [46] []).1,
            (renderTree fs [46] []).2))
    ∧ (∀ a, args = [a] →
      mainRun args fs
        = (0, (a ++ [10]) :: (renderTree fs a []).1, (renderTree fs a []).2))
    ∧ (2 ≤ args.length → mainRun args fs = (1, [], [Diag.usage]))
    ∧ (args.length ≤ 1 → (mainRun args fs).1 = 0) := by
  refine ⟨?_, ?_, ?_, ?_⟩
  · rintro rfl
    simp [mainRun]
  · rintro a rfl
    simp [mainRun]
  · intro h
    rw [mainRun, if_pos (by omega)]
  · intro h
    rw [mainRun, if_neg (by omega)]

/-- C9: the dynamic array starts at capacity 10 (hence at least 1), an
append stores the entry at the current count, the capacity is doubled
exactly when the count has reached it and kept otherwise, the count never
exceeds the capacity, and the finished listing holds the entries in
insertion order. -/
theorem claim9_capacity_doubling (children : List (List Nat × Option FSTree)) :
    (buildListing children).entries = listEntries children
    ∧ 10 ≤ (buildListing children).capacity
    ∧ (buildListing children).entries.length ≤ (buildListing children).capacity
    ∧ (∀ (s : ListingSt) (e : Entry), s.entries.length = s.capacity →
        appendEntry s e = ⟨s.entries ++ [e], s.capacity * 2⟩)
    ∧ (∀ (s : ListingSt) (e : Entry), s.entries.length < s.capacity →
        appendEntry s e = ⟨s.entries ++ [e], s.capacity⟩) := by
  have hgo := buildListing_go children ⟨[], 10⟩
  have hinv := buildListing_inv children ⟨[], 10⟩ (by simp) (by simp)
  refine ⟨by simpa [buildListing] using hgo,
    by simpa [buildListing] using hinv.2,
    by simpa [buildListing] using hinv.1, ?_, ?_⟩
  · intro s e h
    rw [appendEntry, if_pos (by omega)]
  · intro s e h
    rw [appendEntry, if_neg (by omega)]

/-- C10: when an allocation fails while listing one directory, the names
freed by the cleanup are exactly the entry names collected so far (a
prefix of the listing), nothing is printed for that directory, and the
exit code of a run with at most one operand is 0 regardless: the whole
run is not aborted. -/
theorem claim10_alloc_failure_recovery
    (children : List (List Nat × Option FSTree)) (budget : Nat)
    (freed : List (List Nat)) (path pref : List Nat)
    (args : List (List Nat)) (fs : FSTree)
    (hfail : buildAlloc children budget = AllocResult.fail freed)
    (hargs : args.length ≤ 1) :
    (∃ k, freed = ((listEntries children).map Entry.name).take k)
    ∧ renderDirAllocLines children budget path pref = []
    ∧ (mainRun args fs).1 = 0 := by
  refine ⟨buildAlloc_fail children budget freed hfail, ?_, ?_⟩
  · simp [renderDirAllocLines, hfail]
  · rw [mainRun, if_neg (by omega)]

/-- Witness for C10: two files, budget exhausted after the first strdup. -/
theorem claim10_witness :
    ((∃ k, [[97]] = ((listEntries sampleChildren).map Entry.name).take k)
    ∧ renderDirAllocLines sampleChildren 2 [46] [] = []
    ∧ (mainRun [] FSTree.file).1 = 0) :=
  claim10_alloc_failure_recovery sampleChildren 2 [[97]] [46] [] [] FSTree.file
    rfl (by decide)

end Ntree
